import Mathlib

/-!
# Verification of DS210FinalRustProject (src/main.rs)

Shallow embedding of the core of the program: the graph builder
`create_movie_graph` and the shortest-path engine `bfs`.

Modelling conventions:

* `u32` and `usize` values are modelled as `Nat`; the two subtractions the
  source performs (`movies.len() - 20` on `usize`, `movie_id - 1` and
  `user_id - 1` on `u32`) are modelled with explicit two's-complement
  wrapping (`% 2 ^ 64` resp. `% 2 ^ 32`), i.e. the release-profile semantics
  of Rust integer arithmetic (with overflow checks the same subtractions
  would panic instead; where this matters it is noted at the theorem).
* A petgraph `Graph<String, f32, Directed>` is a list of node labels plus a
  list of directed edges in insertion order; node indices handed out by
  `add_node` are consecutive positions `0, 1, 2, ...`, so the `movie_nodes`
  vector of the source is the identity on positions and is not materialised.
  The `f32` edge weight is never computed with (only stored), so the weight
  type is an arbitrary type parameter `α`.
* `Graph::neighbors` of petgraph iterates the outgoing edges of a node
  newest-first, i.e. in reverse insertion order.
* petgraph's `Bfs` iterator (pop front, mark-and-push undiscovered
  successors) is modelled by `bfsAux`, with explicit fuel for the outer
  loop (`nodeCount + 1` pops always suffice: each pop removes one queue
  entry and only undiscovered nodes are ever enqueued) and explicit fuel
  for the backtracking loop of the path reconstruction, which — as proved
  below — can genuinely fail to terminate.  `backtrack` running out of
  `nodeCount + 1` fuel coincides with true divergence of the source loop:
  a terminating predecessor chain never repeats a node, so its length is
  bounded by the number of nodes.
-/

/-- A directed, node-labelled, edge-weighted graph in the style of
`petgraph::Graph<String, α, Directed>`: node labels in insertion order
(a node's identity is its position) and edges in insertion order. -/
structure Graph (α : Type) where
  nodes : List String
  edges : List (Nat × Nat × α)

/-- `Graph::node_count`. -/
def Graph.nodeCount {α : Type} (g : Graph α) : Nat := g.nodes.length

/-- `Graph::edge_count`. -/
def Graph.edgeCount {α : Type} (g : Graph α) : Nat := g.edges.length

/-- `Graph::contains_edge(s, t)`: is there a directed edge `s → t`? -/
def Graph.containsEdge {α : Type} (g : Graph α) (s t : Nat) : Bool :=
  g.edges.any fun e => e.1 == s && e.2.1 == t

/-- `Graph::add_edge(s, t, w)`: appends one directed edge. -/
def Graph.addEdge {α : Type} (g : Graph α) (s t : Nat) (w : α) : Graph α :=
  { g with edges := g.edges ++ [(s, t, w)] }

/-- `Graph::neighbors(v)` for a directed petgraph graph: the targets of the
outgoing edges of `v`, iterated in reverse insertion order. -/
def Graph.neighbors {α : Type} (g : Graph α) (v : Nat) : List Nat :=
  ((g.edges.filter fun e => e.1 == v).map fun e => e.2.1).reverse

/-- Every edge endpoint is a valid node position (petgraph's `add_edge`
panics otherwise, so every graph the program builds satisfies this). -/
def Graph.WF {α : Type} (g : Graph α) : Prop :=
  ∀ ed ∈ g.edges, ed.1 < g.nodeCount ∧ ed.2.1 < g.nodeCount

instance {α : Type} (g : Graph α) : Decidable g.WF :=
  inferInstanceAs
    (Decidable (∀ ed ∈ g.edges, ed.1 < g.nodeCount ∧ ed.2.1 < g.nodeCount))

/-- `2 ^ 32`, the modulus of `u32` arithmetic. -/
def u32Mod : Nat := 2 ^ 32

/-- `2 ^ 64`, the modulus of `usize` arithmetic. -/
def usizeMod : Nat := 2 ^ 64

/-- `x - 1` on `u32` with two's-complement wrapping: `0` wraps to
`2 ^ 32 - 1`.  Models `(movie_id - 1)` and `(user_id - 1)` in the source. -/
def sub32one (x : Nat) : Nat := (x + (u32Mod - 1)) % u32Mod

/-- `n - k` on `usize` with two's-complement wrapping (for `k ≤ 2 ^ 64`).
Models `movies.len() - 20` and `ratings.len() - 20` in the source. -/
def usizeSub (n k : Nat) : Nat := (n + (usizeMod - k)) % usizeMod

/-- The body of the edge loop of `create_movie_graph`, processing one
retained rating `r = (user_id, movie_id, rating)`:
compute `movie_node_index = movie_id - 1`; skip if it is out of bounds of
`movie_nodes` (whose length is `movieNodesLen`); otherwise
`source = movie_nodes[movie_node_index] = movie_node_index` and
`target = NodeIndex::new(user_id - 1)`; if both are `< graph.node_count()`
and the edge is not already present, add it with the rating as weight. -/
def addRatingEdge {α : Type} (movieNodesLen : Nat) (g : Graph α)
    (r : Nat × Nat × α) : Graph α :=
  let movieNodeIndex := sub32one r.2.1
  if movieNodeIndex ≥ movieNodesLen then g
  else
    let source := movieNodeIndex
    let target := sub32one r.1
    if source < g.nodeCount ∧ target < g.nodeCount then
      if g.containsEdge source target then g
      else g.addEdge source target r.2.2
    else g

/-- `create_movie_graph(movies, ratings)` of the source: add one node per
movie in `movies.iter().skip(10).take(movies.len() - 20)` (labelled by its
title), then run the edge loop over
`ratings.iter().skip(10).take(ratings.len() - 20)`. -/
def create_movie_graph {α : Type} (movies : List (Nat × String))
    (ratings : List (Nat × Nat × α)) : Graph α :=
  let retained := (movies.drop 10).take (usizeSub movies.length 20)
  let g0 : Graph α := { nodes := retained.map fun m => m.2, edges := [] }
  ((ratings.drop 10).take (usizeSub ratings.length 20)).foldl
    (addRatingEdge g0.nodeCount) g0

/-- Result of one call of the source's `bfs` function.  `path`/`noPath` are
the two values the Rust function can return; `hang` records that the
reconstruction loop exceeded every terminating bound (the source loops
forever); `searchOut` is the out-of-fuel artifact of the outer model loop
(never reached with the fuel `bfs` supplies). -/
inductive BfsResult
  | path : List Nat → BfsResult
  | noPath : BfsResult
  | hang : BfsResult
  | searchOut : BfsResult
deriving DecidableEq, Repr

/-- The reconstruction loop of `bfs`:
`while let Some(parent) = parents[current.index()] { path.push(current); current = parent; }`.
Returns the pushed nodes in push order; `none` when `fuel` runs out. -/
def backtrack (parents : List (Option Nat)) : Nat → Nat → List Nat → Option (List Nat)
  | 0, _, _ => none
  | fuel + 1, current, acc =>
    match parents.getD current none with
    | none => some acc
    | some p => backtrack parents fuel p (acc ++ [current])

/-- One dequeue of the source's `bfs` loop, fused: for each neighbor of the
dequeued node (in `Graph::neighbors` order), petgraph's `Bfs::next` enqueues
it if undiscovered, and the loop body records the dequeued node as its
parent if it has none yet.  The two passes touch disjoint state, so they are
fused into one pass per neighbor. -/
def processNeighbors (node : Nat) :
    List Nat → List Nat → List Nat → List (Option Nat) →
    List Nat × List Nat × List (Option Nat)
  | [], queue, disc, parents => (queue, disc, parents)
  | v :: vs, queue, disc, parents =>
    let queue2 := if v ∈ disc then queue else queue ++ [v]
    let disc2 := if v ∈ disc then disc else v :: disc
    let parents2 := if (parents.getD v none).isNone then parents.set v (some node)
      else parents
    processNeighbors node vs queue2 disc2 parents2

/-- The `while let Some(node) = bfs.next(&graph)` loop of the source.  When
the dequeued node is `finish`, the source reconstructs the path with the
parents recorded so far (the neighbors the source's `Bfs::next` enqueues
during that final call never influence the returned value), pushes `start`,
and reverses. -/
def bfsAux {α : Type} (g : Graph α) (start finish reconFuel : Nat) :
    Nat → List Nat → List Nat → List (Option Nat) → BfsResult
  | 0, _, _, _ => .searchOut
  | _ + 1, [], _, _ => .noPath
  | fuel + 1, node :: rest, disc, parents =>
    if node = finish then
      match backtrack parents reconFuel finish [] with
      | none => .hang
      | some acc => .path ((acc ++ [start]).reverse)
    else
      bfsAux g start finish reconFuel fuel
        (processNeighbors node (g.neighbors node) rest disc parents).1
        (processNeighbors node (g.neighbors node) rest disc parents).2.1
        (processNeighbors node (g.neighbors node) rest disc parents).2.2

/-- `bfs(graph, start, end)` with an explicit bound on the reconstruction
loop.  `Bfs::new` marks `start` discovered and seeds the queue with it;
`parents = vec![None; graph.node_count()]`. -/
def bfsWithFuel {α : Type} (g : Graph α) (start finish reconFuel : Nat) : BfsResult :=
  bfsAux g start finish reconFuel (g.nodeCount + 1) [start] [start]
    (List.replicate g.nodeCount none)

/-- `bfs(graph, start, end)` of the source.  A terminating reconstruction
never revisits a node, so `nodeCount + 1` steps of `backtrack` fuel are
exhausted exactly when the source's reconstruction loop runs forever. -/
def bfs {α : Type} (g : Graph α) (start finish : Nat) : BfsResult :=
  bfsWithFuel g start finish (g.nodeCount + 1)

/-- `true` iff consecutive elements of the list are joined by directed
edges of `g` (a directed walk; `[]` and singletons are trivially walks). -/
def isWalk {α : Type} (g : Graph α) : List Nat → Bool
  | a :: b :: rest => g.containsEdge a b && isWalk g (b :: rest)
  | _ => true

/-- The ordered `(source, target)` pairs of the edge list. -/
def edgePairs {α : Type} (g : Graph α) : List (Nat × Nat) :=
  g.edges.map fun e => (e.1, e.2.1)

/-- `BackChain g s c tail`: `tail = [c, c₁, ..., cₖ]` is a predecessor chain
recorded by the reconstruction loop, i.e. each element has a directed edge
from its successor in the list, and the element after `cₖ` is `s` (with
`tail = []` forcing `c = s`).  Reversing `tail ++ [s]` yields a directed
walk from `s` to `c`. -/
inductive BackChain {α : Type} (g : Graph α) (s : Nat) : Nat → List Nat → Prop
  | base : BackChain g s s []
  | step (c p : Nat) (tail : List Nat) :
      g.containsEdge p c = true → BackChain g s p tail →
      BackChain g s c (c :: tail)

/-- Loop invariant of the BFS search: every recorded parent is the source
of a directed edge into its child and is itself discovered; every
discovered node other than `start` has a recorded parent; the queue holds
only discovered nodes; and the parents vector has one slot per node. -/
def SearchInv {α : Type} (g : Graph α) (s : Nat) (queue disc : List Nat)
    (parents : List (Option Nat)) : Prop :=
  (∀ v u, parents.getD v none = some u → g.containsEdge u v = true ∧ u ∈ disc) ∧
  (∀ v, v ∈ disc → v ≠ s → parents.getD v none ≠ none) ∧
  (∀ q, q ∈ queue → q ∈ disc) ∧
  parents.length = g.nodeCount

/-! ## Concrete inputs used by the counterexamples and witnesses -/

/-- Fifteen movie records: long enough that `skip(10)` leaves elements,
short enough that `movies.len() - 20` wraps around. -/
def m15 : List (Nat × String) := List.replicate 15 ((1 : Nat), "m")

/-- Twenty-one movie records: the retained window has exactly one node. -/
def movies21 : List (Nat × String) := List.replicate 21 ((1 : Nat), "m")

/-- Twenty-one ratings `(user_id = 1, movie_id = 1, score = 5)`: exactly one
is retained, and it computes source position `0` and target position `0`. -/
def ratings21 : List (Nat × Nat × Nat) := List.replicate 21 ((1 : Nat), (1 : Nat), (5 : Nat))

/-- Twenty-three movie records: the retained window has three nodes. -/
def movies23 : List (Nat × String) := List.replicate 23 ((1 : Nat), "m")

/-- Twenty-three ratings whose retained window is
`[(2,1,5), (1,2,5), (3,2,5)]`, i.e. edges `0 → 1`, `1 → 0`, `1 → 2` in that
insertion order (the ten ratings on either side have `movie_id = 0`, which
is discarded by the bounds check and adds nothing). -/
def ratings23 : List (Nat × Nat × Nat) :=
  List.replicate 10 ((0 : Nat), (0 : Nat), (5 : Nat)) ++
    [(2, 1, 5), (1, 2, 5), (3, 2, 5)] ++
    List.replicate 10 ((0 : Nat), (0 : Nat), (5 : Nat))

/-- The graph the program builds from `movies23` and `ratings23`: three
nodes and the directed edges `0 → 1`, `1 → 0`, `1 → 2`.  Querying it with
`start = 0`, `end = 2` makes the reconstruction loop of `bfs` run forever. -/
def gBad : Graph Nat := create_movie_graph movies23 ratings23

/-- The parents vector at the moment `bfs gBad 0 2` dequeues node `2`:
node `1` was recorded as parent of `2`, node `0` as parent of `1`, and —
fatally — node `1` as parent of the start node `0`. -/
def pBad : List (Option Nat) := [some 1, some 0, some 1]

/-- A two-node graph with the single edge `0 → 1`; used by witnesses. -/
def gTwo : Graph Nat := { nodes := ["x", "y"], edges := [(0, 1, 7)] }


/-! ## Small list lemmas -/

theorem getD_replicate_none : ∀ (n i : Nat),
    (List.replicate n (none : Option Nat)).getD i none = none
  | 0, _ => rfl
  | _ + 1, 0 => rfl
  | n + 1, i + 1 => getD_replicate_none n i

theorem getD_set_self : ∀ (l : List (Option Nat)) (i : Nat) (a : Option Nat),
    i < l.length → (l.set i a).getD i none = a
  | _ :: _, 0, _, _ => rfl
  | _ :: l, i + 1, a, h => getD_set_self l i a (Nat.lt_of_succ_lt_succ h)
  | [], i, _, h => absurd h (Nat.not_lt_zero i)

theorem getD_set_ne : ∀ (l : List (Option Nat)) (i j : Nat) (a : Option Nat),
    i ≠ j → (l.set i a).getD j none = l.getD j none
  | [], _, _, _, _ => rfl
  | _ :: _, 0, 0, _, h => absurd rfl h
  | _ :: _, 0, _ + 1, _, _ => rfl
  | _ :: _, _ + 1, 0, _, _ => rfl
  | _ :: l, i + 1, j + 1, a, h =>
    getD_set_ne l i j a (fun hh => h (congrArg Nat.succ hh))

/-! ## Builder lemmas -/

theorem addRatingEdge_nodes {α : Type} (mlen : Nat) (g : Graph α) (r : Nat × Nat × α) :
    (addRatingEdge mlen g r).nodes = g.nodes := by
  simp only [addRatingEdge]
  split_ifs <;> rfl

theorem foldl_addRatingEdge_nodes {α : Type} (mlen : Nat) :
    ∀ (l : List (Nat × Nat × α)) (g : Graph α),
      (l.foldl (addRatingEdge mlen) g).nodes = g.nodes
  | [], _ => rfl
  | r :: l, g => by
    rw [List.foldl_cons, foldl_addRatingEdge_nodes mlen l, addRatingEdge_nodes]

theorem addRatingEdge_edgeCount_le {α : Type} (mlen : Nat) (g : Graph α)
    (r : Nat × Nat × α) : (addRatingEdge mlen g r).edgeCount ≤ g.edgeCount + 1 := by
  simp only [addRatingEdge]
  split_ifs <;> simp [Graph.addEdge, Graph.edgeCount]

theorem foldl_addRatingEdge_edgeCount_le {α : Type} (mlen : Nat) :
    ∀ (l : List (Nat × Nat × α)) (g : Graph α),
      (l.foldl (addRatingEdge mlen) g).edgeCount ≤ g.edgeCount + l.length
  | [], _ => Nat.le_refl _
  | r :: l, g => by
    rw [List.foldl_cons]
    calc (l.foldl (addRatingEdge mlen) (addRatingEdge mlen g r)).edgeCount
        ≤ (addRatingEdge mlen g r).edgeCount + l.length :=
          foldl_addRatingEdge_edgeCount_le mlen l _
      _ ≤ (g.edgeCount + 1) + l.length :=
          Nat.add_le_add_right (addRatingEdge_edgeCount_le mlen g r) _
      _ = g.edgeCount + (r :: l).length := by simp [List.length_cons]; omega

theorem build_nodeCount {α : Type} (movies : List (Nat × String))
    (ratings : List (Nat × Nat × α)) :
    (create_movie_graph movies ratings).nodeCount
      = min (usizeSub movies.length 20) (movies.length - 10) := by
  simp only [create_movie_graph, Graph.nodeCount]
  rw [foldl_addRatingEdge_nodes]
  simp [List.length_take, List.length_drop]

theorem build_edgeCount_le {α : Type} (movies : List (Nat × String))
    (ratings : List (Nat × Nat × α)) :
    (create_movie_graph movies ratings).edgeCount
      ≤ min (usizeSub ratings.length 20) (ratings.length - 10) := by
  simp only [create_movie_graph]
  refine le_trans (foldl_addRatingEdge_edgeCount_le _ _ _) ?_
  simp [Graph.edgeCount, List.length_take, List.length_drop]

/-! ## Claims about the builder -/

/-- Claim C2, refuted: for the 15-element movie list `m15` (and no ratings)
the node count is 5, not `max(0, 15 - 20) = 0`: the `usize` subtraction
`movies.len() - 20` wraps around, so `take` retains everything after the
first ten movies. -/
theorem claim2_counterexample :
    (create_movie_graph m15 ([] : List (Nat × Nat × Nat))).nodeCount = 5 ∧
    ((create_movie_graph m15 ([] : List (Nat × Nat × Nat))).nodeCount : Int)
      ≠ max 0 ((m15.length : Int) - 20) := by decide

/-- Claim C2 as amended: the node count after `build` equals
`min(wrap64(len(movies) - 20), len(movies) - 10)` — which is
`max(0, len - 20)` when `len ≤ 10` or `len ≥ 20`, but `len - 10` when
`10 < len < 20` because the `usize` subtraction wraps; likewise the edge
count is at most `min(wrap64(len(ratings) - 20), len(ratings) - 10)`. -/
theorem claim2_amended {α : Type} (movies : List (Nat × String))
    (ratings : List (Nat × Nat × α)) :
    (create_movie_graph movies ratings).nodeCount
        = min (usizeSub movies.length 20) (movies.length - 10) ∧
    (create_movie_graph movies ratings).edgeCount
        ≤ min (usizeSub ratings.length 20) (ratings.length - 10) :=
  ⟨build_nodeCount movies ratings, build_edgeCount_le movies ratings⟩

/-- Claim C3, refuted: `m15` has fewer than 20 elements, yet its windowed
subsequence is not empty — `build` produces five nodes from it, not zero
(under a debug profile the wrapped subtraction would panic instead). -/
theorem claim3_counterexample :
    m15.length < 20 ∧
    (create_movie_graph m15 ([] : List (Nat × Nat × Nat))).nodeCount ≠ 0 := by decide

/-- Claim C3 as amended: `build` (under release, i.e. wrapping, arithmetic)
is total and never fails, but the windowed subsequence is empty — zero
nodes and zero edges — only when the corresponding input has at most 10
elements; for 11 to 19 elements the wrapped `take` count retains everything
after the first ten elements. -/
theorem claim3_amended {α : Type} (movies : List (Nat × String))
    (ratings : List (Nat × Nat × α)) (hm : movies.length ≤ 10)
    (hr : ratings.length ≤ 10) :
    (create_movie_graph movies ratings).nodeCount = 0 ∧
    (create_movie_graph movies ratings).edgeCount = 0 := by
  constructor
  · rw [build_nodeCount]
    have : movies.length - 10 = 0 := by omega
    rw [this]
    exact Nat.min_zero _
  · have h := build_edgeCount_le movies ratings
    have : ratings.length - 10 = 0 := by omega
    rw [this, Nat.min_zero] at h
    exact Nat.le_zero.mp h

theorem claim3_witness :
    ([] : List (Nat × String)).length ≤ 10 ∧
    ([] : List (Nat × Nat × Nat)).length ≤ 10 ∧
    ((create_movie_graph [] ([] : List (Nat × Nat × Nat))).nodeCount = 0 ∧
      (create_movie_graph [] ([] : List (Nat × Nat × Nat))).edgeCount = 0) :=
  ⟨by decide, by decide, claim3_amended [] [] (by decide) (by decide)⟩

/-- Claim C4: a retained rating whose `user_id` or `movie_id` is zero adds
no edge and causes no failure: under the wrapping (`signed-safe`) `u32`
arithmetic of the source, `0 - 1` wraps to `2^32 - 1`, which fails the
`movie_nodes` bounds check (for `movie_id`) or the `node_count` bounds
check (for `user_id`), so the rating is silently discarded.
(`movieNodesLen` and the node count are below `2^32`, as they are for
every graph the program can build.) -/
theorem claim4_zero_id_no_edge {α : Type} (mlen : Nat) (g : Graph α)
    (r : Nat × Nat × α) (hm : mlen < u32Mod) (hg : g.nodeCount < u32Mod)
    (hz : r.1 = 0 ∨ r.2.1 = 0) :
    addRatingEdge mlen g r = g := by
  have hval : sub32one 0 = u32Mod - 1 := by decide
  have hpos : (0 : Nat) < u32Mod := by decide
  rcases hz with hz | hz
  · by_cases hidx : sub32one r.2.1 ≥ mlen
    · simp only [addRatingEdge, if_pos hidx]
    · have ht : ¬ (sub32one r.2.1 < g.nodeCount ∧ sub32one r.1 < g.nodeCount) := by
        rintro ⟨-, h2⟩
        rw [hz, hval] at h2
        omega
      simp only [addRatingEdge, if_neg hidx, if_neg ht]
  · have hidx : sub32one r.2.1 ≥ mlen := by
      rw [hz, hval]
      omega
    simp only [addRatingEdge, if_pos hidx]

theorem claim4_witness :
    (5 : Nat) < u32Mod ∧ gTwo.nodeCount < u32Mod ∧
    (((0 : Nat), (3 : Nat), (2 : Nat)).1 = 0 ∨ ((0 : Nat), (3 : Nat), (2 : Nat)).2.1 = 0) ∧
    addRatingEdge 5 gTwo ((0 : Nat), (3 : Nat), (2 : Nat)) = gTwo :=
  ⟨by decide, by decide, Or.inl rfl,
    claim4_zero_id_no_edge 5 gTwo ((0 : Nat), (3 : Nat), (2 : Nat))
      (by decide) (by decide) (Or.inl rfl)⟩

/-! ## Edge de-duplication -/

theorem containsEdge_iff_mem_edgePairs {α : Type} (g : Graph α) (s t : Nat) :
    g.containsEdge s t = true ↔ (s, t) ∈ edgePairs g := by
  unfold Graph.containsEdge edgePairs
  rw [List.any_eq_true, List.mem_map]
  constructor
  · rintro ⟨e, he, hp⟩
    simp only [Bool.and_eq_true, beq_iff_eq] at hp
    exact ⟨e, he, by rw [hp.1, hp.2]⟩
  · rintro ⟨e, he, hp⟩
    rw [Prod.mk.injEq] at hp
    exact ⟨e, he, by simp [hp.1, hp.2]⟩

theorem addRatingEdge_nodup {α : Type} (mlen : Nat) (g : Graph α)
    (r : Nat × Nat × α) (h : (edgePairs g).Nodup) :
    (edgePairs (addRatingEdge mlen g r)).Nodup := by
  simp only [addRatingEdge]
  split_ifs with h1 h2 h3
  · exact h
  · exact h
  · have hpairs : edgePairs (g.addEdge (sub32one r.2.1) (sub32one r.1) r.2.2)
        = edgePairs g ++ [(sub32one r.2.1, sub32one r.1)] := by
      simp [Graph.addEdge, edgePairs]
    rw [hpairs, List.nodup_append]
    refine ⟨h, List.nodup_singleton _, ?_⟩
    rw [List.disjoint_singleton]
    intro hmem
    exact h3 ((containsEdge_iff_mem_edgePairs g _ _).mpr hmem)
  · exact h

theorem foldl_addRatingEdge_nodup {α : Type} (mlen : Nat) :
    ∀ (l : List (Nat × Nat × α)) (g : Graph α),
      (edgePairs g).Nodup → (edgePairs (l.foldl (addRatingEdge mlen) g)).Nodup
  | [], _, h => h
  | r :: l, g, h => by
    rw [List.foldl_cons]
    exact foldl_addRatingEdge_nodup mlen l _ (addRatingEdge_nodup mlen g r h)

/-- Claim C7: after `build`, no two edges share the same ordered
`(source, target)` pair — the `contains_edge` guard discards a second
rating that computes to an already-present pair, so the list of ordered
pairs of the built graph has no duplicates. -/
theorem claim7_edge_dedup {α : Type} (movies : List (Nat × String))
    (ratings : List (Nat × Nat × α)) :
    (edgePairs (create_movie_graph movies ratings)).Nodup := by
  simp only [create_movie_graph]
  apply foldl_addRatingEdge_nodup
  simp [edgePairs]

/-- Claim C9: `build` is a pure, deterministic function of its two ordered
input sequences (the source reads no other state): identical inputs yield
identical node count, edge count, and node-label order. -/
theorem claim9_deterministic {α : Type} (m1 m2 : List (Nat × String))
    (r1 r2 : List (Nat × Nat × α)) (hm : m1 = m2) (hr : r1 = r2) :
    (create_movie_graph m1 r1).nodeCount = (create_movie_graph m2 r2).nodeCount ∧
    (create_movie_graph m1 r1).edgeCount = (create_movie_graph m2 r2).edgeCount ∧
    (create_movie_graph m1 r1).nodes = (create_movie_graph m2 r2).nodes := by
  subst hm
  subst hr
  exact ⟨rfl, rfl, rfl⟩

theorem claim9_witness :
    m15 = m15 ∧ ratings21 = ratings21 ∧
    ((create_movie_graph m15 ratings21).nodeCount
        = (create_movie_graph m15 ratings21).nodeCount ∧
      (create_movie_graph m15 ratings21).edgeCount
        = (create_movie_graph m15 ratings21).edgeCount ∧
      (create_movie_graph m15 ratings21).nodes
        = (create_movie_graph m15 ratings21).nodes) :=
  ⟨rfl, rfl, claim9_deterministic m15 m15 ratings21 ratings21 rfl rfl⟩

/-- Claim C10: `build` can produce a self-loop.  From 21 movies and 21
ratings whose single retained rating has `user_id = movie_id = 1`, the
computed source and target positions are both `0`, a valid node position,
and the builder adds the edge `0 → 0`: nothing in the construction
excludes self-loops. -/
theorem claim10_self_loop :
    (create_movie_graph movies21 ratings21).edges = [(0, 0, 5)] ∧
    ((create_movie_graph movies21 ratings21).edges.any fun e => e.1 == e.2.1) = true := by
  decide

/-! ## The shortest-path engine: divergence of the reconstruction loop -/

/-- Claim C1, refuted: on the graph the program builds from `movies23` and
`ratings23` (edges `0 → 1`, `1 → 0`, `1 → 2`), node `2` is reachable from
node `0` by the directed walk `[0, 1, 2]`, yet `bfs gBad 0 2` returns no
minimal-length sequence (and no `None` either): by the time node `2` is
dequeued, node `1` — which has an edge back to the start — has overwritten
`parents[0]`, and the reconstruction loop cycles `2, 1, 0, 1, 0, ...`
forever.  `BfsResult.hang` records that the loop exceeds the
`nodeCount + 1` bound that every terminating predecessor chain obeys
(`claim5_reconstruction_diverges` shows every larger bound is exceeded
too). -/
theorem claim1_reachable_but_no_result :
    isWalk gBad [0, 1, 2] = true ∧ [0, 1, 2].head? = some 0 ∧
    [0, 1, 2].getLast? = some 2 ∧ 0 < gBad.nodeCount ∧ 2 < gBad.nodeCount ∧
    bfs gBad 0 2 = BfsResult.hang := by decide

theorem backtrack_pBad_cycle : ∀ fuel : Nat,
    (∀ acc, backtrack pBad fuel 0 acc = none) ∧
    (∀ acc, backtrack pBad fuel 1 acc = none)
  | 0 => ⟨fun _ => rfl, fun _ => rfl⟩
  | fuel + 1 =>
    ⟨fun acc => (backtrack_pBad_cycle fuel).2 (acc ++ [0]),
     fun acc => (backtrack_pBad_cycle fuel).1 (acc ++ [1])⟩

theorem backtrack_pBad_from_two : ∀ (fuel : Nat) (acc : List Nat),
    backtrack pBad fuel 2 acc = none
  | 0, _ => rfl
  | fuel + 1, acc => (backtrack_pBad_cycle fuel).2 (acc ++ [2])

theorem bfsWithFuel_gBad_eq (reconFuel : Nat) :
    bfsWithFuel gBad 0 2 reconFuel =
      match backtrack pBad reconFuel 2 [] with
      | none => BfsResult.hang
      | some acc => BfsResult.path ((acc ++ [0]).reverse) := rfl

/-- Claim C5, refuted: the query `bfs gBad 0 2` does not terminate.  When
node `2` is dequeued the parents vector is `pBad = [some 1, some 0, some 1]`
— the start node itself has a recorded predecessor — so following
predecessor links from the end node never reaches a `None` entry: for every
finite bound `reconFuel` on the reconstruction loop, the loop is still
running (`backtrack` returns `none`, reported as `BfsResult.hang`).  The
source's `while let Some(parent) = parents[current]` loop therefore cycles
between nodes `1` and `0` forever. -/
theorem claim5_reconstruction_diverges (reconFuel : Nat) :
    bfsWithFuel gBad 0 2 reconFuel = BfsResult.hang := by
  rw [bfsWithFuel_gBad_eq, backtrack_pBad_from_two reconFuel []]

/-- Claim C8: `shortest_path(g, s, s)` returns the one-element path `[s]`
through the general mechanism: the start node is dequeued first, at which
point every `parents` entry is still `None`, so the reconstruction loop
body runs zero times, `start` is pushed, and the reversed path is `[s]`. -/
theorem claim8_self_query {α : Type} (g : Graph α) (s : Nat)
    (_hs : s < g.nodeCount) : bfs g s s = BfsResult.path [s] := by
  have h1 : (List.replicate g.nodeCount (none : Option Nat)).getD s none = none :=
    getD_replicate_none _ _
  simp [bfs, bfsWithFuel, bfsAux, backtrack, h1]

theorem claim8_witness :
    0 < gTwo.nodeCount ∧ bfs gTwo 0 0 = BfsResult.path [0] :=
  ⟨by decide, claim8_self_query gTwo 0 (by decide)⟩

/-! ## Soundness of the returned path (claim C6) -/

theorem mem_neighbors_exists {α : Type} (g : Graph α) (u v : Nat)
    (h : v ∈ g.neighbors u) : ∃ w, (u, v, w) ∈ g.edges := by
  unfold Graph.neighbors at h
  rw [List.mem_reverse, List.mem_map] at h
  obtain ⟨e, he, hev⟩ := h
  rw [List.mem_filter] at he
  obtain ⟨hmem, hfil⟩ := he
  rw [beq_iff_eq] at hfil
  refine ⟨e.2.2, ?_⟩
  have he2 : (u, v, e.2.2) = e := by rw [← hfil, ← hev]
  rw [he2]
  exact hmem

theorem containsEdge_of_mem {α : Type} (g : Graph α) (u v : Nat) (w : α)
    (h : (u, v, w) ∈ g.edges) : g.containsEdge u v = true := by
  unfold Graph.containsEdge
  rw [List.any_eq_true]
  exact ⟨(u, v, w), h, by simp⟩

theorem neighbors_spec {α : Type} (g : Graph α) (hWF : g.WF) (node : Nat) :
    ∀ v ∈ g.neighbors node, v < g.nodeCount ∧ g.containsEdge node v = true := by
  intro v hv
  obtain ⟨w, hw⟩ := mem_neighbors_exists g node v hv
  exact ⟨(hWF _ hw).2, containsEdge_of_mem g node v w hw⟩

theorem isWalk_append {α : Type} (g : Graph α) :
    ∀ (L : List Nat) (p c : Nat), isWalk g L = true → L.getLast? = some p →
      g.containsEdge p c = true → isWalk g (L ++ [c]) = true
  | [], _, _, _, hl, _ => by simp at hl
  | [a], p, c, _, hl, he => by
    have ha : a = p := by simpa using hl
    subst ha
    simp [isWalk, he]
  | a :: b :: L, p, c, hw, hl, he => by
    rw [isWalk, Bool.and_eq_true] at hw
    have hl2 : (b :: L).getLast? = some p := by
      rw [← List.getLast?_cons_cons (a := a)]
      exact hl
    have ih := isWalk_append g (b :: L) p c hw.2 hl2 he
    show isWalk g (a :: b :: (L ++ [c])) = true
    rw [isWalk, Bool.and_eq_true]
    exact ⟨hw.1, ih⟩

theorem backChain_walk {α : Type} (g : Graph α) (s : Nat) :
    ∀ (c : Nat) (tail : List Nat), BackChain g s c tail →
      isWalk g ((tail ++ [s]).reverse) = true ∧
      ((tail ++ [s]).reverse).head? = some s ∧
      ((tail ++ [s]).reverse).getLast? = some c := by
  intro c tail h
  induction h with
  | base => refine ⟨rfl, rfl, by simp⟩
  | step c p tail hedge hch ih =>
    obtain ⟨hw, hh, hl⟩ := ih
    have hL : ((c :: tail) ++ [s]).reverse = ((tail ++ [s]).reverse) ++ [c] := by
      simp
    rw [hL]
    refine ⟨isWalk_append g _ p c hw hl hedge, ?_, List.getLast?_concat _⟩
    rw [List.head?_append, hh]
    rfl

theorem backtrack_sound {α : Type} (g : Graph α) (s : Nat) (disc : List Nat)
    (parents : List (Option Nat))
    (hP : ∀ v u, parents.getD v none = some u → g.containsEdge u v = true ∧ u ∈ disc)
    (hD : ∀ v, v ∈ disc → v ≠ s → parents.getD v none ≠ none) :
    ∀ (fuel current : Nat) (acc res : List Nat), current ∈ disc →
      backtrack parents fuel current acc = some res →
      ∃ tail, res = acc ++ tail ∧ BackChain g s current tail
  | 0, _, _, _, _, h => by simp [backtrack] at h
  | fuel + 1, current, acc, res, hcur, h => by
    rw [backtrack] at h
    cases hg : parents.getD current none with
    | none =>
      rw [hg] at h
      have hres : acc = res := by simpa using h
      by_cases hcs : current = s
      · subst hcs
        exact ⟨[], by simp [hres], BackChain.base⟩
      · exact absurd hg (hD current hcur hcs)
    | some p =>
      rw [hg] at h
      obtain ⟨hedge, hpd⟩ := hP current p hg
      obtain ⟨tail, htail, hchain⟩ :=
        backtrack_sound g s disc parents hP hD fuel p (acc ++ [current]) res hpd h
      exact ⟨current :: tail, by simp [htail],
        BackChain.step current p tail hedge hchain⟩

theorem processNeighbors_step {α : Type} (g : Graph α) (s node v : Nat)
    (queue disc : List Nat) (parents : List (Option Nat))
    (hv : v < g.nodeCount) (hcv : g.containsEdge node v = true)
    (hnode : node ∈ disc) (hInv : SearchInv g s queue disc parents) :
    SearchInv g s (if v ∈ disc then queue else queue ++ [v])
      (if v ∈ disc then disc else v :: disc)
      (if (parents.getD v none).isNone then parents.set v (some node) else parents) ∧
    ∀ d ∈ disc, d ∈ (if v ∈ disc then disc else v :: disc) := by
  obtain ⟨hA, hB, hQ, hLen⟩ := hInv
  have hvlen : v < parents.length := by rw [hLen]; exact hv
  have hsub : ∀ d ∈ disc, d ∈ (if v ∈ disc then disc else v :: disc) := by
    intro d hd
    split_ifs
    · exact hd
    · exact List.mem_cons_of_mem v hd
  refine ⟨⟨?_, ?_, ?_, ?_⟩, hsub⟩
  · -- every recorded parent is an edge source and discovered
    intro w u hw
    by_cases hnv : (parents.getD v none).isNone
    · rw [if_pos hnv] at hw
      by_cases hwv : w = v
      · subst hwv
        rw [getD_set_self parents w (some node) hvlen] at hw
        have hu : u = node := by simpa using hw.symm
        rw [hu]
        exact ⟨hcv, hsub node hnode⟩
      · rw [getD_set_ne parents v w (some node) (fun hh => hwv hh.symm)] at hw
        obtain ⟨h1, h2⟩ := hA w u hw
        exact ⟨h1, hsub u h2⟩
    · rw [if_neg hnv] at hw
      obtain ⟨h1, h2⟩ := hA w u hw
      exact ⟨h1, hsub u h2⟩
  · -- every discovered node except the start has a recorded parent
    intro w hw2 hws
    by_cases hwv : w = v
    · subst hwv
      by_cases hnv : (parents.getD w none).isNone
      · rw [if_pos hnv, getD_set_self parents w (some node) hvlen]
        simp
      · rw [if_neg hnv]
        exact Option.isNone_iff_eq_none.not.mp hnv
    · have hwd : w ∈ disc := by
        by_cases hvd : v ∈ disc
        · rwa [if_pos hvd] at hw2
        · rw [if_neg hvd] at hw2
          rcases List.mem_cons.mp hw2 with h | h
          · exact absurd h hwv
          · exact h
      have hold := hB w hwd hws
      by_cases hnv : (parents.getD v none).isNone
      · rw [if_pos hnv, getD_set_ne parents v w (some node) (fun hh => hwv hh.symm)]
        exact hold
      · rw [if_neg hnv]
        exact hold
  · -- the queue holds only discovered nodes
    intro q hq
    by_cases hvd : v ∈ disc
    · rw [if_pos hvd] at hq ⊢
      exact hQ q hq
    · rw [if_neg hvd] at hq ⊢
      rcases List.mem_append.mp hq with h | h
      · exact List.mem_cons_of_mem v (hQ q h)
      · rw [List.mem_singleton] at h
        subst h
        exact List.mem_cons_self q disc
  · -- parents length is the node count
    split_ifs
    · rw [List.length_set]
      exact hLen
    · exact hLen

theorem processNeighbors_inv {α : Type} (g : Graph α) (s node : Nat) :
    ∀ (vs queue disc : List Nat) (parents : List (Option Nat)),
      (∀ v ∈ vs, v < g.nodeCount ∧ g.containsEdge node v = true) →
      node ∈ disc →
      SearchInv g s queue disc parents →
      SearchInv g s (processNeighbors node vs queue disc parents).1
        (processNeighbors node vs queue disc parents).2.1
        (processNeighbors node vs queue disc parents).2.2 ∧
      ∀ d ∈ disc, d ∈ (processNeighbors node vs queue disc parents).2.1
  | [], _, _, _, _, _, hInv => ⟨hInv, fun _ hd => hd⟩
  | v :: vs, queue, disc, parents, hvs, hnode, hInv => by
    have hstep := processNeighbors_step g s node v queue disc parents
      (hvs v (List.mem_cons_self v vs)).1 (hvs v (List.mem_cons_self v vs)).2
      hnode hInv
    have hnode2 : node ∈ (if v ∈ disc then disc else v :: disc) :=
      hstep.2 node hnode
    have hrec := processNeighbors_inv g s node vs
      (if v ∈ disc then queue else queue ++ [v])
      (if v ∈ disc then disc else v :: disc)
      (if (parents.getD v none).isNone then parents.set v (some node) else parents)
      (fun u hu => hvs u (List.mem_cons_of_mem v hu)) hnode2 hstep.1
    exact ⟨hrec.1, fun d hd => hrec.2 d (hstep.2 d hd)⟩

theorem bfsAux_path_sound {α : Type} (g : Graph α) (hWF : g.WF) (s e rf : Nat) :
    ∀ (fuel : Nat) (queue disc : List Nat) (parents : List (Option Nat))
      (p : List Nat),
      SearchInv g s queue disc parents →
      bfsAux g s e rf fuel queue disc parents = BfsResult.path p →
      isWalk g p = true ∧ p.head? = some s ∧ p.getLast? = some e
  | 0, _, _, _, _, _, h => by simp [bfsAux] at h
  | _ + 1, [], _, _, _, _, h => by simp [bfsAux] at h
  | fuel + 1, node :: rest, disc, parents, p, hInv, h => by
    by_cases hne : node = e
    · subst hne
      rw [bfsAux, if_pos rfl] at h
      cases hb : backtrack parents rf node [] with
      | none =>
        rw [hb] at h
        simp at h
      | some acc =>
        rw [hb] at h
        simp only [BfsResult.path.injEq] at h
        have hmem : node ∈ disc := hInv.2.2.1 node (List.mem_cons_self node rest)
        obtain ⟨tail, htail, hchain⟩ :=
          backtrack_sound g s disc parents hInv.1 hInv.2.1 rf node [] acc hmem hb
        rw [List.nil_append] at htail
        subst htail
        rw [← h]
        exact backChain_walk g s node acc hchain
    · rw [bfsAux, if_neg hne] at h
      have hmem : node ∈ disc := hInv.2.2.1 node (List.mem_cons_self node rest)
      have hInv2 : SearchInv g s rest disc parents :=
        ⟨hInv.1, hInv.2.1,
          fun q hq => hInv.2.2.1 q (List.mem_cons_of_mem node hq), hInv.2.2.2⟩
      have hpn := processNeighbors_inv g s node (g.neighbors node) rest disc parents
        (neighbors_spec g hWF node) hmem hInv2
      exact bfsAux_path_sound g hWF s e rf fuel _ _ _ p hpn.1 h

/-- Claim C6: whenever `bfs` returns a sequence, consecutive elements of
that sequence are joined by directed edges of `g` (a valid directed walk),
its first element is `start`, and its last element is `end`.  (This holds
for every well-formed graph and valid endpoints; when the reconstruction
loop diverges — see `claim5_reconstruction_diverges` — no sequence is
returned, so the claim is not contradicted there.) -/
theorem claim6_path_is_walk {α : Type} (g : Graph α) (s e : Nat) (p : List Nat)
    (hWF : g.WF) (_hs : s < g.nodeCount) (_he : e < g.nodeCount)
    (h : bfs g s e = BfsResult.path p) :
    isWalk g p = true ∧ p.head? = some s ∧ p.getLast? = some e := by
  refine bfsAux_path_sound g hWF s e (g.nodeCount + 1) (g.nodeCount + 1) [s] [s]
    (List.replicate g.nodeCount none) p ⟨?_, ?_, ?_, ?_⟩ h
  · intro v u hv
    rw [getD_replicate_none] at hv
    exact Option.noConfusion hv
  · intro v hvd hvs
    rw [List.mem_singleton] at hvd
    exact absurd hvd hvs
  · intro q hq
    exact hq
  · exact List.length_replicate _ _

theorem claim6_witness :
    gTwo.WF ∧ 0 < gTwo.nodeCount ∧ 1 < gTwo.nodeCount ∧
    bfs gTwo 0 1 = BfsResult.path [0, 1] ∧
    (isWalk gTwo [0, 1] = true ∧ [0, 1].head? = some 0 ∧
      [0, 1].getLast? = some 1) :=
  ⟨by decide, by decide, by decide, by decide,
    claim6_path_is_walk gTwo 0 1 [0, 1] (by decide) (by decide) (by decide)
      (by decide)⟩
